import Mathlib

/-
Shallow embedding of the bene-volent/dsa Go library.

Conventions used throughout:
* Go `int` is modelled as Lean `Int`; fixed Go arrays `[100]T` are modelled
  as total functions `Nat → Int` together with explicit range checks at every
  buffer access the Go runtime would bounds-check.  An operation that can hit
  a Go runtime panic (out-of-range index, nil-pointer dereference) returns an
  `Option`, with `none` standing for the panic (abrupt termination).
* A Go method that mutates its receiver and returns `error` is modelled as a
  function returning the new state paired with `Option Err` (`none` = nil
  error), mirroring Go's value/error convention.
* Element type parameters are instantiated at `Int`; the Go code is generic
  over a closed set of numeric types and treats elements opaquely, so the
  choice of instance does not affect any control flow being verified.
-/

namespace Dsa

/-! ## BoundedArray — src/array/array.go -/

/-- Pointwise update of a modelled fixed buffer (one Go array-slot write). -/
def upd (f : Nat → Int) (i : Nat) (v : Int) : Nat → Int :=
  fun j => if j = i then v else f j

@[simp] lemma upd_same (f : Nat → Int) (i : Nat) (v : Int) : upd f i v i = v := by
  simp [upd]

@[simp] lemma upd_ne (f : Nat → Int) (i j : Nat) (v : Int) (h : j ≠ i) :
    upd f i v j = f j := by
  simp [upd, h]

/-- Go `array[T]`: a `[100]T` buffer plus a logical size (`src/array/array.go:11`). -/
structure BArray where
  arr : Nat → Int
  size : Int

/-- The error values returned by the array package (Go error strings). -/
inductive AErr where
  | full        -- "Array is full"
  | empty       -- "Array is empty"
  | outOfBounds -- "Index out of bounds"
  | notFound    -- "Element not found"
  | cannotFit   -- "Cannot fit both arrays completely"
deriving DecidableEq

/-- Go `New[T]()`: zero-valued buffer, size 0. -/
def BArray.new : BArray := ⟨fun _ => 0, 0⟩

/-- The right-shift loop of `InsertElement`:
`for i := arr.size - 1; i >= index; i-- { arr.arr[i+1] = arr.arr[i] }`,
unrolled by remaining iteration count (fuel `n+1` handles `i = index + n`). -/
def shiftRightLoop (index : Int) : Nat → (Nat → Int) → (Nat → Int)
  | 0, f => f
  | n + 1, f => shiftRightLoop index n (upd f (index + n + 1).toNat (f (index + n).toNat))

/-- Go `InsertElement(element, index)` (`src/array/array.go:48`): bounds check,
full check, then shift right and write.  The shift writes at indices up to
`size`, in range only for `size ≤ 99` (otherwise the Go runtime panics). -/
def BArray.insertElement (a : BArray) (element index : Int) : Option (BArray × Option AErr) :=
  if index < 0 ∨ a.size < index then some (a, some .outOfBounds)
  else if a.size = 100 then some (a, some .full)
  else if a.size ≤ 99 then
    some (⟨upd (shiftRightLoop index (a.size - index).toNat a.arr) index.toNat element,
           a.size + 1⟩, none)
  else none

/-- The left-shift loop of `RemoveAtIndex`:
`for i := index; i < arr.size-1; i++ { arr.arr[i] = arr.arr[i+1] }`,
first argument is the current `i`, second the remaining iteration count. -/
def shiftLeftLoop : Nat → Nat → (Nat → Int) → (Nat → Int)
  | _, 0, f => f
  | i, n + 1, f => shiftLeftLoop (i + 1) n (upd f i (f (i + 1)))

/-- Go `RemoveAtIndex(index)` (`src/array/array.go:68`): bounds check first,
then an `Empty` check (dead code: `size == 0` already fails the bounds check
for every index), then shift left.  The shift reads index `size - 1`, in
range only for `size ≤ 100`. -/
def BArray.removeAtIndex (a : BArray) (index : Int) : Option (BArray × Option AErr) :=
  if index < 0 ∨ a.size ≤ index then some (a, some .outOfBounds)
  else if a.size = 0 then some (a, some .empty)
  else if a.size ≤ 100 then
    some (⟨shiftLeftLoop index.toNat (a.size - 1 - index).toNat a.arr, a.size - 1⟩, none)
  else none

/-- Go `Get(index)` (`src/array/array.go:87`): returns `(0, err)` on a bounds
failure, otherwise the element (the read panics for `index ≥ 100`). -/
def BArray.get (a : BArray) (index : Int) : Option (Int × Option AErr) :=
  if index < 0 ∨ a.size ≤ index then some (0, some .outOfBounds)
  else if index ≤ 99 then some (a.arr index.toNat, none)
  else none

/-- Go `Set(index, val)` (`src/array/array.go:96`). -/
def BArray.set (a : BArray) (index v : Int) : Option (BArray × Option AErr) :=
  if index < 0 ∨ a.size ≤ index then some (a, some .outOfBounds)
  else if index ≤ 99 then some (⟨upd a.arr index.toNat v, a.size⟩, none)
  else none

/-- The print loop of `PrintAll`:
`for i := 0; i < arr.size-1; i++ { fmt.Print(arr.arr[i], ", ") }`;
each read is bounds-checked by the Go runtime. -/
def printLoop (f : Nat → Int) : Nat → Nat → String → Option String
  | _, 0, s => some s
  | i, n + 1, s =>
    if i ≤ 99 then printLoop f (i + 1) n (s ++ toString (f i) ++ ", ") else none

/-- Go `PrintAll()` (`src/array/array.go:117`): prints the first `size - 1`
elements, then unconditionally reads `arr.arr[arr.size-1]` — an index of `-1`
(runtime panic, modelled as `none`) when `size == 0`. -/
def BArray.printAll (a : BArray) : Option String :=
  (printLoop a.arr 0 (a.size - 1).toNat "[ ").bind fun s =>
    if 0 ≤ a.size - 1 ∧ a.size - 1 ≤ 99 then
      some (s ++ toString (a.arr (a.size - 1).toNat) ++ " ]")
    else none

/-- The first `Merge` loop (`src/array/array.go:133`): copies `arr.arr[i]`
into `res.arr[i]` for `i < arr.size`, incrementing `res.size` each time. -/
def copyLoop (src : Nat → Int) : Nat → Nat → BArray → Option BArray
  | _, 0, res => some res
  | i, n + 1, res =>
    if i ≤ 99 then copyLoop src (i + 1) n ⟨upd res.arr i (src i), res.size + 1⟩
    else none

/-- The second `Merge` loop (`src/array/array.go:140`): copies
`otherArr.arr[i]` into `res.arr[arr.size+i]`, increments `res.size`, and
breaks once `res.size == 100`.  The write `res.arr[arr.size+i]` is performed
BEFORE the size check, so it panics (modelled `none`) whenever
`arr.size + i` is outside `[0, 99]`. -/
def mergeLoop (aSize : Int) (src : Nat → Int) : Nat → Nat → BArray → Option BArray
  | _, 0, res => some res
  | i, n + 1, res =>
    if i ≤ 99 ∧ 0 ≤ aSize + i ∧ aSize + i ≤ 99 then
      let res1 : BArray := ⟨upd res.arr (aSize + i).toNat (src i), res.size + 1⟩
      if res1.size = 100 then some res1 else mergeLoop aSize src (i + 1) n res1
    else none

/-- Go `Merge(otherArr)` (`src/array/array.go:128`): copy both arrays into a
fresh array, then report "Cannot fit both arrays completely" when
`arr.size + otherArr.size > 100`. -/
def BArray.merge (a b : BArray) : Option (BArray × Option AErr) :=
  (copyLoop a.arr 0 a.size.toNat BArray.new).bind fun res =>
    (mergeLoop a.size b.arr 0 b.size.toNat res).map fun res1 =>
      (res1, if 100 < a.size + b.size then some .cannotFit else none)

/-- A fully populated array (100 elements) and a one-element array, exactly
what 100 successful `PushElement` calls and 1 successful one produce on the
value-irrelevant buffer. -/
def fullArray : BArray := ⟨fun _ => 0, 100⟩

/-- One-element array used as the second `Merge` argument. -/
def oneArray : BArray := ⟨fun _ => 0, 1⟩

/-- C1: the claim says `Merge` never terminates abruptly, returning a
truncated result of size `min(a.size + b.size, 100)` with a
`CapacityExceeded` error whenever `a.size + b.size > 100`.  The code instead
writes `res.arr[arr.size+i]` before checking the size, so merging a full
array (size 100) with a non-empty one indexes slot 100 of a `[100]T` array —
a Go runtime panic, modelled as `none`. -/
theorem c1_merge_full_array_panics : BArray.merge fullArray oneArray = none := by
  rfl

/-- C5: the claim says `PrintAll` performs only in-range buffer accesses on
every array including the empty one.  On `size == 0` the code reads
`arr.arr[arr.size-1]`, i.e. index `-1` — a Go runtime panic, modelled as
`none`. -/
theorem c5_printAll_empty_panics : BArray.printAll BArray.new = none := by
  rfl

/-- C7: for every index outside `[0, size]` (insert) resp. `[0, size)`
(get / set / remove), the operation fails with `OutOfBounds` and returns the
receiver unchanged (same buffer, same size). -/
theorem c7_out_of_bounds_rejected (a : BArray) (index v : Int) :
    ((index < 0 ∨ a.size < index) →
        a.insertElement v index = some (a, some .outOfBounds)) ∧
    ((index < 0 ∨ a.size ≤ index) →
        a.removeAtIndex index = some (a, some .outOfBounds) ∧
        a.get index = some (0, some .outOfBounds) ∧
        a.set index v = some (a, some .outOfBounds)) := by
  constructor
  · intro h
    simp [BArray.insertElement, h]
  · intro h
    refine ⟨?_, ?_, ?_⟩ <;> simp [BArray.removeAtIndex, BArray.get, BArray.set, h]

/-- Witness for C7 at a concrete array and index. -/
theorem c7_out_of_bounds_rejected_witness :
    BArray.new.insertElement 1 5 = some (BArray.new, some .outOfBounds) ∧
    BArray.new.removeAtIndex 5 = some (BArray.new, some .outOfBounds) ∧
    BArray.new.get 5 = some (0, some .outOfBounds) ∧
    BArray.new.set 5 1 = some (BArray.new, some .outOfBounds) := by
  have h := c7_out_of_bounds_rejected BArray.new 5 1
  exact ⟨h.1 (by decide), h.2 (by decide)⟩

/-- C8 counterexample: on the empty array `RemoveAtIndex 0` returns the
`OutOfBounds` error, not the `Empty` error the claim demands (the bounds
check precedes the empty check, and with `size == 0` it already rejects
every index). -/
theorem c8_empty_remove_not_empty_error :
    BArray.new.removeAtIndex 0 = some (BArray.new, some AErr.outOfBounds) ∧
    AErr.outOfBounds ≠ AErr.empty := by
  exact ⟨rfl, by decide⟩

/-- C8 (amended): for every index, `RemoveAtIndex` on a size-0 array fails
with the `OutOfBounds` error (the `Empty` branch is unreachable). -/
theorem c8_empty_remove_out_of_bounds (a : BArray) (index : Int)
    (h : a.size = 0) : a.removeAtIndex index = some (a, some .outOfBounds) := by
  rcases lt_or_le index 0 with hi | hi
  · simp [BArray.removeAtIndex, hi]
  · have : a.size ≤ index := by omega
    simp [BArray.removeAtIndex, this]

/-- Witness for the amended C8 at a concrete array and index. -/
theorem c8_empty_remove_out_of_bounds_witness :
    BArray.new.removeAtIndex 3 = some (BArray.new, some .outOfBounds) :=
  c8_empty_remove_out_of_bounds BArray.new 3 rfl

/-! ## Stack — array backing and list backing (stack package source) -/

/-- Go `stackArray[T]` (fixed `[100]T` buffer, `top` index of the last pushed
element, `-1` when empty). -/
structure StackArray where
  arr : Nat → Int
  top : Int

/-- Go `NewArray[T]()`: `top = -1`, zero-valued buffer. -/
def StackArray.newArray : StackArray := ⟨fun _ => 0, -1⟩

/-- Go `stackArray.Push`: overflow error (`none` here) when
`top == StackMaxSize-1`; otherwise writes `arr[top+1]` and increments `top`.
The write is in range for `-1 ≤ top ≤ 98`; outside that the Go runtime
panics, also modelled `none`. -/
def StackArray.push (s : StackArray) (v : Int) : Option StackArray :=
  if s.top = 99 then none
  else if -1 ≤ s.top ∧ s.top ≤ 98 then
    some ⟨upd s.arr (s.top + 1).toNat v, s.top + 1⟩
  else none

/-- Go `stackArray.Pop`: underflow error when `top == -1`; otherwise
decrements `top` and returns `arr[top+1]` (the slot is not cleared). -/
def StackArray.pop (s : StackArray) : Option (Int × StackArray) :=
  if s.top = -1 then none
  else if 0 ≤ s.top ∧ s.top ≤ 99 then
    some (s.arr s.top.toNat, ⟨s.arr, s.top - 1⟩)
  else none

/-- Go `stackList[T]`: chain of nodes from the top (modelled as the list of
values from the top node), `top` index, and a construction-time capacity. -/
structure StackList where
  chain : List Int
  top : Int
  capacity : Int

/-- Go `NewList[T](capacity...)` with an explicit capacity argument; the
variadic no-argument form is `newList 100` (`StackMaxSize`). -/
def StackList.newList (cap : Int) : StackList := ⟨[], -1, cap⟩

/-- Go `stackList.Push`: overflow error when `top == capacity-1`; otherwise a
new node holding `v` becomes the top node. -/
def StackList.push (s : StackList) (v : Int) : Option StackList :=
  if s.top = s.capacity - 1 then none
  else some ⟨v :: s.chain, s.top + 1, s.capacity⟩

/-- Go `stackList.Pop`: underflow error when `top == -1`; otherwise detaches
the top node and returns its value.  A nil top node with `top ≠ -1` would be
a nil dereference (unreachable from the constructor), modelled `none`. -/
def StackList.pop (s : StackList) : Option (Int × StackList) :=
  if s.top = -1 then none
  else
    match s.chain with
    | [] => none
    | v :: rest => some (v, ⟨rest, s.top - 1, s.capacity⟩)

/-- Push a whole sequence onto an array-backed stack, failing if any push fails. -/
def pushAllA : StackArray → List Int → Option StackArray
  | s, [] => some s
  | s, v :: vs => (s.push v).bind fun s1 => pushAllA s1 vs

/-- Pop `n` times from an array-backed stack, collecting values in pop order. -/
def popAllA : StackArray → Nat → Option (List Int × StackArray)
  | s, 0 => some ([], s)
  | s, n + 1 => s.pop.bind fun p => (popAllA p.2 n).map fun q => (p.1 :: q.1, q.2)

/-- Push a whole sequence onto a list-backed stack, failing if any push fails. -/
def pushAllL : StackList → List Int → Option StackList
  | s, [] => some s
  | s, v :: vs => (s.push v).bind fun s1 => pushAllL s1 vs

/-- Pop `n` times from a list-backed stack, collecting values in pop order. -/
def popAllL : StackList → Nat → Option (List Int × StackList)
  | s, 0 => some ([], s)
  | s, n + 1 => s.pop.bind fun p => (popAllL p.2 n).map fun q => (p.1 :: q.1, q.2)

/-- Push the sequence onto a fresh array-backed stack and pop it all back. -/
def runStackArray (vs : List Int) : Option (List Int) :=
  (pushAllA StackArray.newArray vs).bind fun s =>
    (popAllA s vs.length).map fun q => q.1

/-- Push the sequence onto a fresh list-backed stack of capacity `cap` and
pop it all back. -/
def runStackList (cap : Int) (vs : List Int) : Option (List Int) :=
  (pushAllL (StackList.newList cap) vs).bind fun s =>
    (popAllL s vs.length).map fun q => q.1

lemma popAllA_add (m n : Nat) : ∀ s : StackArray,
    popAllA s (m + n) =
      (popAllA s m).bind fun p => (popAllA p.2 n).map fun q => (p.1 ++ q.1, q.2) := by
  induction m with
  | zero =>
    intro s
    simp only [Nat.zero_add, popAllA, Option.some_bind]
    cases popAllA s n with
    | none => rfl
    | some q => simp
  | succ m ih =>
    intro s
    have harr : m + 1 + n = (m + n) + 1 := by omega
    rw [harr]
    simp only [popAllA]
    cases s.pop with
    | none => rfl
    | some p =>
      simp only [Option.some_bind]
      rw [ih p.2]
      cases popAllA p.2 m with
      | none => rfl
      | some q =>
        simp only [Option.map_some', Option.some_bind]
        cases popAllA q.2 n with
        | none => rfl
        | some r => simp

/-- Array-stack invariant lemma: from any state with `-1 ≤ top` and room for
the whole sequence, every push succeeds, occupied slots below the starting
top are untouched, and popping the sequence length returns it reversed,
restoring the starting top. -/
lemma pushAllA_popAllA : ∀ (vs : List Int) (s : StackArray),
    -1 ≤ s.top → s.top + vs.length ≤ 99 →
    ∃ s1, pushAllA s vs = some s1 ∧ s1.top = s.top + vs.length ∧
      (∀ j : Nat, (j : Int) ≤ s.top → s1.arr j = s.arr j) ∧
      popAllA s1 vs.length = some (vs.reverse, ⟨s1.arr, s.top⟩) := by
  intro vs
  induction vs with
  | nil =>
    intro s _ _
    exact ⟨s, rfl, by simp, fun j _ => rfl, rfl⟩
  | cons v vs ih =>
    intro s hlo hhi
    rw [List.length_cons] at hhi
    push_cast at hhi
    have htop99 : s.top ≠ 99 := by omega
    have hr2 : s.top ≤ 98 := by omega
    have hpush : s.push v = some ⟨upd s.arr (s.top + 1).toNat v, s.top + 1⟩ := by
      simp [StackArray.push, htop99, hlo, hr2]
    obtain ⟨s2, hpa, htop2, hpres, hpop⟩ :=
      ih ⟨upd s.arr (s.top + 1).toNat v, s.top + 1⟩ (by dsimp only; omega)
        (by dsimp only; omega)
    dsimp only at htop2 hpres hpop
    refine ⟨s2, ?_, ?_, ?_, ?_⟩
    · simp only [pushAllA, hpush, Option.some_bind]
      exact hpa
    · rw [htop2, List.length_cons]
      push_cast
      ring
    · intro j hj
      have hj1 : (j : Int) ≤ s.top + 1 := by omega
      rw [hpres j hj1]
      have hne : j ≠ (s.top + 1).toNat := by omega
      exact upd_ne _ _ _ _ hne
    · rw [List.length_cons, popAllA_add vs.length 1 s2, hpop]
      simp only [Option.some_bind]
      have hvone : popAllA ⟨s2.arr, s.top + 1⟩ 1 = some ([v], ⟨s2.arr, s.top⟩) := by
        have hne1 : s.top + 1 ≠ -1 := by omega
        have h0 : (0:Int) ≤ s.top + 1 := by omega
        have h99 : s.top + 1 ≤ 99 := by omega
        have hval : s2.arr (s.top + 1).toNat = v := by
          have hle : (((s.top + 1).toNat : Nat) : Int) ≤ s.top + 1 := by omega
          rw [hpres _ hle]
          exact upd_same _ _ _
        simp [popAllA, StackArray.pop, hne1, h0, h99, hval]
      rw [hvone]
      simp only [Option.map_some']
      rw [List.reverse_cons]

/-- List-stack push lemma: with room for the whole sequence every push
succeeds, prepending the reversed sequence to the chain. -/
lemma pushAllL_spec : ∀ (vs : List Int) (s : StackList),
    s.top + 1 + vs.length ≤ s.capacity →
    pushAllL s vs = some ⟨vs.reverse ++ s.chain, s.top + vs.length, s.capacity⟩ := by
  intro vs
  induction vs with
  | nil =>
    intro s _
    simp [pushAllL]
  | cons v vs ih =>
    intro s hhi
    rw [List.length_cons] at hhi
    push_cast at hhi
    have hne : s.top ≠ s.capacity - 1 := by omega
    have hpush : s.push v = some ⟨v :: s.chain, s.top + 1, s.capacity⟩ := by
      simp [StackList.push, hne]
    have hrec := ih ⟨v :: s.chain, s.top + 1, s.capacity⟩ (by dsimp only; omega)
    dsimp only at hrec
    simp only [pushAllL, hpush, Option.some_bind]
    rw [hrec]
    have h1 : (v :: vs).reverse ++ s.chain = vs.reverse ++ v :: s.chain := by
      rw [List.reverse_cons, List.append_assoc]
      rfl
    have h2 : s.top + ((v :: vs).length : Int) = s.top + 1 + (vs.length : Int) := by
      rw [List.length_cons]
      push_cast
      ring
    rw [h1, h2]

/-- List-stack pop lemma: popping a prefix of the chain returns it and
decrements `top` accordingly. -/
lemma popAllL_spec : ∀ (pre : List Int) (s : StackList) (tl : List Int),
    s.chain = pre ++ tl → (pre.length : Int) ≤ s.top + 1 →
    popAllL s pre.length = some (pre, ⟨tl, s.top - pre.length, s.capacity⟩) := by
  intro pre
  induction pre with
  | nil =>
    intro s tl hchain _
    cases s with
    | mk c t cap =>
      simp only [List.nil_append] at hchain
      subst hchain
      simp [popAllL]
  | cons v pre ih =>
    intro s tl hchain hlen
    rw [List.length_cons] at hlen
    push_cast at hlen
    have hne : s.top ≠ -1 := by omega
    have hpop : s.pop = some (v, ⟨pre ++ tl, s.top - 1, s.capacity⟩) := by
      simp [StackList.pop, hne, hchain]
    have hrec := ih ⟨pre ++ tl, s.top - 1, s.capacity⟩ tl rfl (by dsimp only; omega)
    dsimp only at hrec
    rw [List.length_cons]
    simp only [popAllL, hpop, Option.some_bind, hrec, Option.map_some']
    have h2 : s.top - ((pre.length + 1 : Nat) : Int) = s.top - 1 - (pre.length : Int) := by
      push_cast
      ring
    rw [h2]

/-- C3: for both stack backings, pushing any sequence whose length does not
exceed the backing's capacity onto a fresh stack succeeds throughout, and
popping the same number of times returns the values in reverse push order
(LIFO).  The array backing's capacity is the constant 100; the list
backing's is its construction argument. -/
theorem c3_stacks_lifo (vs : List Int) (cap : Int) :
    ((vs.length : Int) ≤ 100 → runStackArray vs = some vs.reverse) ∧
    ((vs.length : Int) ≤ cap → runStackList cap vs = some vs.reverse) := by
  constructor
  · intro h
    obtain ⟨s1, hpa, _, _, hpop⟩ :=
      pushAllA_popAllA vs StackArray.newArray (by dsimp only [StackArray.newArray]; omega)
        (by dsimp only [StackArray.newArray]; omega)
    simp only [runStackArray, hpa, Option.some_bind, hpop, Option.map_some']
  · intro h
    have hpush := pushAllL_spec vs (StackList.newList cap)
      (by dsimp only [StackList.newList]; omega)
    dsimp only [StackList.newList] at hpush
    rw [List.append_nil] at hpush
    have hpop := popAllL_spec vs.reverse ⟨vs.reverse, -1 + vs.length, cap⟩ []
      (List.append_nil _).symm
      (by dsimp only; rw [List.length_reverse]; omega)
    dsimp only at hpop
    rw [List.length_reverse] at hpop
    simp only [runStackList, StackList.newList, hpush, Option.some_bind, hpop,
      Option.map_some']

/-- Witness for C3: a concrete three-element sequence on both backings. -/
theorem c3_stacks_lifo_witness :
    runStackArray [1, 2, 3] = some [3, 2, 1] ∧
    runStackList 5 [1, 2, 3] = some [3, 2, 1] := by
  have h := c3_stacks_lifo [1, 2, 3] 5
  exact ⟨h.1 (by decide), h.2 (by decide)⟩

/-! ## SinglyLinkedList — src/linkedlist/linkedlist.go -/

/-- The error values returned by the linkedlist package (Go error strings). -/
inductive LErr where
  | emptyList          -- "Cannot insert at end of empty list"
  | insertOutOfBounds  -- "Invalid position for insertion"
  | deleteEmpty        -- "Cannot delete from an empty list!"
  | deleteOutOfBounds  -- "invalid position for deletion"
deriving DecidableEq

/-- Go `SinglyLinkedList[T]` (`src/linkedlist/linkedlist.go:53`): the chain of
node values reachable from `head` by following `Next` (empty list = nil
head), together with the separately maintained `length` counter. -/
structure SLL where
  chain : List Int
  length : Int
deriving DecidableEq

/-- Go `NewSLL[T]()`: nil head, zero length. -/
def SLL.new : SLL := ⟨[], 0⟩

/-- Go `InsertAtBeginning(val)` (`linkedlist.go:78`): the new node becomes
head; always returns a nil error. -/
def SLL.insertAtBeginning (l : SLL) (v : Int) : SLL × Option LErr :=
  (⟨v :: l.chain, l.length + 1⟩, none)

/-- Go `InsertAtEnd(val)` (`linkedlist.go:87`): error when `head == nil`;
otherwise walks to the last node and appends. -/
def SLL.insertAtEnd (l : SLL) (v : Int) : SLL × Option LErr :=
  if l.chain = [] then (l, some .emptyList)
  else (⟨l.chain ++ [v], l.length + 1⟩, none)

/-- The walk-and-relink of `InsertAtPosition`'s general branch: starting at
`head`, step `n` times along `Next` (`for i := 1; i < pos; i++` walks
`pos - 1` steps), then splice the new node after the current one.  Stepping
from or relinking after a nil node is a Go nil dereference, modelled `none`. -/
def linkAfter : List Int → Nat → Int → Option (List Int)
  | [], _, _ => none
  | x :: rest, 0, v => some (x :: v :: rest)
  | x :: rest, n + 1, v => (linkAfter rest n v).map fun c => x :: c

/-- Go `InsertAtPosition(val, pos)` (`linkedlist.go:105`): bounds check, then
delegation to `InsertAtBeginning` at `pos == 0` and to `InsertAtEnd` at
`pos == length-1`, otherwise the walk-and-relink. -/
def SLL.insertAtPosition (l : SLL) (v pos : Int) : Option (SLL × Option LErr) :=
  if pos < 0 ∨ l.length < pos then some (l, some .insertOutOfBounds)
  else if pos = 0 then some (l.insertAtBeginning v)
  else if pos = l.length - 1 then some (l.insertAtEnd v)
  else (linkAfter l.chain (pos - 1).toNat v).map fun c => (⟨c, l.length + 1⟩, none)

/-- Go `DeleteFromBeginning()` (`linkedlist.go:140`): error when
`length == 0` (returning value 0); otherwise reads `head.Val` — a nil
dereference (modelled `none`) if the chain is empty although `length ≠ 0` —
and unlinks the head. -/
def SLL.deleteFromBeginning (l : SLL) : Option (SLL × Int × Option LErr) :=
  if l.length = 0 then some (l, 0, some .deleteEmpty)
  else
    match l.chain with
    | [] => none
    | v :: rest => some (⟨rest, l.length - 1⟩, v, none)

/-- The walk of `DeleteFromEnd`: given the head value and the rest of the
chain, splits off the last node (`curr` stops one before the tail). -/
def lastSplit : Int → List Int → List Int × Int
  | x, [] => ([], x)
  | x, y :: rest =>
    let p := lastSplit y rest
    (x :: p.1, p.2)

/-- Go `DeleteFromEnd()` (`linkedlist.go:160`): error when `length == 0`;
delegates to `DeleteFromBeginning` when `length == 1`; otherwise walks to the
node before the tail and truncates.  With `length ≥ 2` but fewer than two
real nodes the walk dereferences nil (modelled `none`). -/
def SLL.deleteFromEnd (l : SLL) : Option (SLL × Int × Option LErr) :=
  if l.length = 0 then some (l, 0, some .deleteEmpty)
  else if l.length = 1 then l.deleteFromBeginning
  else
    match l.chain with
    | [] => none
    | [_] => none
    | x :: y :: rest =>
      let p := lastSplit y rest
      some (⟨x :: p.1, l.length - 1⟩, p.2, none)

/-- The walk-and-unlink of `DeleteAtPosition`'s general branch: step `n`
times from `head` (`for i := 0; i < pos-1; i++` walks `pos - 1` steps), then
remove the node after the current one, returning its value.  A nil
dereference along the way is modelled `none`. -/
def removeAfter : List Int → Nat → Option (Int × List Int)
  | [], _ => none
  | [_], 0 => none
  | x :: y :: rest, 0 => some (y, x :: rest)
  | x :: rest, n + 1 => (removeAfter rest n).map fun p => (p.1, x :: p.2)

/-- Go `DeleteAtPosition(pos)` (`linkedlist.go:189`): bounds check, boundary
delegations, otherwise the walk-and-unlink. -/
def SLL.deleteAtPosition (l : SLL) (pos : Int) : Option (SLL × Int × Option LErr) :=
  if pos < 0 ∨ l.length ≤ pos then some (l, 0, some .deleteOutOfBounds)
  else if pos = 0 then l.deleteFromBeginning
  else if pos = l.length - 1 then l.deleteFromEnd
  else (removeAfter l.chain (pos - 1).toNat).map fun p =>
    (⟨p.2, l.length - 1⟩, p.1, none)

lemma linkAfter_some : ∀ (c : List Int) (n : Nat) (v : Int), n < c.length →
    linkAfter c n v = some (c.take (n + 1) ++ v :: c.drop (n + 1)) := by
  intro c
  induction c with
  | nil =>
    intro n v h
    simp at h
  | cons x rest ih =>
    intro n v h
    cases n with
    | zero => simp [linkAfter]
    | succ n =>
      rw [List.length_cons] at h
      have hrec := ih n v (by omega)
      simp [linkAfter, hrec]

/-- C6: `InsertAtEnd` fails with `EmptyList` on a headless list, leaving it
unchanged; on every non-empty list it succeeds, appends the value after the
current last node, and increments `length` by 1. -/
theorem c6_insertAtEnd (l : SLL) (v : Int) :
    (l.chain = [] → l.insertAtEnd v = (l, some .emptyList)) ∧
    (l.chain ≠ [] → l.insertAtEnd v = (⟨l.chain ++ [v], l.length + 1⟩, none)) := by
  constructor
  · intro h
    simp [SLL.insertAtEnd, h]
  · intro h
    simp [SLL.insertAtEnd, h]

/-- Witness for C6: the empty list rejects, a one-element list appends. -/
theorem c6_insertAtEnd_witness :
    SLL.insertAtEnd ⟨[], 0⟩ 5 = (⟨[], 0⟩, some .emptyList) ∧
    SLL.insertAtEnd ⟨[1], 1⟩ 5 = (⟨[1, 5], 2⟩, none) := by
  exact ⟨(c6_insertAtEnd ⟨[], 0⟩ 5).1 rfl,
         (c6_insertAtEnd ⟨[1], 1⟩ 5).2 (by decide)⟩

/-- C4: on every well-formed list (`length` matches the chain),
`InsertAtPosition` fails with `OutOfBounds` exactly on `pos < 0 ∨ pos >
length` (leaving the list unchanged); in bounds it delegates to
`InsertAtBeginning` at `pos = 0`, delegates to `InsertAtEnd` at
`pos = length - 1` (which then succeeds, appending at the true end), and
otherwise splices the new value after exactly `pos` predecessors,
incrementing `length`. -/
theorem c4_insertAtPosition_cases (l : SLL) (v pos : Int)
    (hwf : l.length = (l.chain.length : Int)) :
    ((pos < 0 ∨ l.length < pos) →
        l.insertAtPosition v pos = some (l, some .insertOutOfBounds)) ∧
    (¬(pos < 0 ∨ l.length < pos) →
      (pos = 0 → l.insertAtPosition v pos = some (l.insertAtBeginning v)) ∧
      (pos = l.length - 1 → pos ≠ 0 →
          l.insertAtPosition v pos = some (l.insertAtEnd v) ∧
          l.insertAtEnd v = (⟨l.chain ++ [v], l.length + 1⟩, none)) ∧
      (pos ≠ 0 → pos ≠ l.length - 1 →
          l.insertAtPosition v pos =
            some (⟨l.chain.take pos.toNat ++ v :: l.chain.drop pos.toNat,
                   l.length + 1⟩, none))) := by
  constructor
  · intro h
    simp only [SLL.insertAtPosition]
    rw [if_pos h]
  · intro h
    refine ⟨?_, ?_, ?_⟩
    · intro h0
      simp only [SLL.insertAtPosition]
      rw [if_neg h, if_pos h0]
    · intro hend h0
      have hlen2 : 2 ≤ l.length := by omega
      have hne : l.chain ≠ [] := by
        intro hc
        rw [hc] at hwf
        simp at hwf
        omega
      constructor
      · simp only [SLL.insertAtPosition]
        rw [if_neg h, if_neg h0, if_pos hend]
      · simp [SLL.insertAtEnd, hne]
    · intro h0 hend
      have hge : 1 ≤ pos := by omega
      have hle : pos ≤ l.length := by omega
      have hlt : (pos - 1).toNat < l.chain.length := by omega
      have hlink := linkAfter_some l.chain (pos - 1).toNat v hlt
      have hidx : (pos - 1).toNat + 1 = pos.toNat := by omega
      rw [hidx] at hlink
      simp only [SLL.insertAtPosition]
      rw [if_neg h, if_neg h0, if_neg hend, hlink]
      simp only [Option.map_some']

/-- Witness for C4 at a concrete list and mid-position. -/
theorem c4_insertAtPosition_cases_witness :
    SLL.insertAtPosition ⟨[10, 20, 30], 3⟩ 7 1 = some (⟨[10, 7, 20, 30], 4⟩, none) := by
  have h := (c4_insertAtPosition_cases ⟨[10, 20, 30], 3⟩ 7 1 (by decide)).2
    (by decide)
  have h3 := h.2.2 (by decide) (by decide)
  simpa using h3

/-- C10: for every well-formed list, the empty one included,
`InsertAtPosition(v, length)` succeeds and places `v` at the true end of the
list, incrementing `length` — even though `InsertAtEnd` itself rejects the
empty list and the `pos == length-1` delegation targets the end rather than
the second-to-last position. -/
theorem c10_insert_at_length_appends (l : SLL) (v : Int)
    (hwf : l.length = (l.chain.length : Int)) :
    l.insertAtPosition v l.length = some (⟨l.chain ++ [v], l.length + 1⟩, none) := by
  have hc0 : ¬(l.length < 0 ∨ l.length < l.length) := by omega
  by_cases h0 : l.length = 0
  · have hc : l.chain = [] := by
      rw [h0] at hwf
      have h1 : l.chain.length = 0 := by exact_mod_cast hwf.symm
      exact List.length_eq_zero.mp h1
    simp only [SLL.insertAtPosition]
    rw [if_neg hc0, if_pos h0]
    simp [SLL.insertAtBeginning, hc]
  · have hge : 1 ≤ l.length := by omega
    have hneL : l.length ≠ l.length - 1 := by omega
    have hlt : (l.length - 1).toNat < l.chain.length := by omega
    have hlink := linkAfter_some l.chain (l.length - 1).toNat v hlt
    have hidx : (l.length - 1).toNat + 1 = l.chain.length := by omega
    rw [hidx] at hlink
    rw [List.take_length, List.drop_length] at hlink
    simp only [SLL.insertAtPosition]
    rw [if_neg hc0, if_neg h0, if_neg hneL, hlink]
    simp only [Option.map_some']

/-- Witness for C10: inserting at `pos = length` into the empty list. -/
theorem c10_insert_at_length_appends_witness :
    SLL.insertAtPosition ⟨[], 0⟩ 5 0 = some (⟨[5], 1⟩, none) := by
  simpa using c10_insert_at_length_appends ⟨[], 0⟩ 5 (by decide)

/-! ### Operation sequences over the singly linked list (C9) -/

/-- One call of a mutating `SinglyLinkedList` operation (the traversal and
search operations do not change the state). -/
inductive SllOp where
  | insB (v : Int)
  | insE (v : Int)
  | insP (v : Int) (pos : Int)
  | delB
  | delE
  | delP (pos : Int)

/-- Apply one operation; the two booleans flag a successful insertion resp.
deletion (nil returned error).  `none` is a Go runtime panic. -/
def applyOp (l : SLL) : SllOp → Option (SLL × Bool × Bool)
  | .insB v =>
    let r := l.insertAtBeginning v
    some (r.1, r.2.isNone, false)
  | .insE v =>
    let r := l.insertAtEnd v
    some (r.1, r.2.isNone, false)
  | .insP v pos => (l.insertAtPosition v pos).map fun r => (r.1, r.2.isNone, false)
  | .delB => l.deleteFromBeginning.map fun r => (r.1, false, r.2.2.isNone)
  | .delE => l.deleteFromEnd.map fun r => (r.1, false, r.2.2.isNone)
  | .delP pos => (l.deleteAtPosition pos).map fun r => (r.1, false, r.2.2.isNone)

/-- Run a whole sequence of operations, counting successful insertions and
deletions. -/
def runOps : SLL → Nat → Nat → List SllOp → Option (SLL × Nat × Nat)
  | l, ins, del, [] => some (l, ins, del)
  | l, ins, del, op :: ops =>
    (applyOp l op).bind fun r =>
      runOps r.1 (ins + if r.2.1 then 1 else 0) (del + if r.2.2 then 1 else 0) ops

lemma removeAfter_some : ∀ (c : List Int) (n : Nat), n + 1 < c.length →
    ∃ w c2, removeAfter c n = some (w, c2) ∧ c2.length + 1 = c.length := by
  intro c
  induction c with
  | nil =>
    intro n h
    simp at h
  | cons x rest ih =>
    intro n h
    cases n with
    | zero =>
      cases rest with
      | nil => simp at h
      | cons y rest2 => exact ⟨y, x :: rest2, rfl, by simp⟩
    | succ n =>
      rw [List.length_cons] at h
      obtain ⟨w, c2, hr, hl⟩ := ih n (by omega)
      refine ⟨w, x :: c2, ?_, ?_⟩
      · simp [removeAfter, hr]
      · simp only [List.length_cons]
        omega

lemma lastSplit_len : ∀ (rest : List Int) (x : Int),
    (lastSplit x rest).1.length = rest.length := by
  intro rest
  induction rest with
  | nil =>
    intro x
    rfl
  | cons y r ih =>
    intro x
    simp [lastSplit, ih y]

lemma exists_cons_of_one_le (c : List Int) (h : 1 ≤ c.length) :
    ∃ x rest, c = x :: rest := by
  cases c with
  | nil => simp at h
  | cons x rest => exact ⟨x, rest, rfl⟩

lemma exists_cons_cons_of_two_le (c : List Int) (h : 2 ≤ c.length) :
    ∃ x y rest, c = x :: y :: rest := by
  cases c with
  | nil => simp at h
  | cons x t =>
    cases t with
    | nil => simp at h
    | cons y rest => exact ⟨x, y, rest, rfl⟩

/-- Single-step preservation: on a well-formed list every operation either
succeeds or returns an error leaving the list unchanged (never panics), the
result is well-formed, and the length moves by the success flags. -/
lemma applyOp_wf (l : SLL) (op : SllOp) (hwf : l.length = (l.chain.length : Int)) :
    ∃ l1 bi bd, applyOp l op = some (l1, bi, bd) ∧
      l1.length = (l1.chain.length : Int) ∧
      l1.length = l.length + (if bi then (1:Int) else 0) - (if bd then (1:Int) else 0) := by
  cases op with
  | insB v =>
    refine ⟨⟨v :: l.chain, l.length + 1⟩, true, false, rfl, ?_, by simp⟩
    show l.length + 1 = ((v :: l.chain).length : Int)
    simp only [List.length_cons]
    omega
  | insE v =>
    by_cases hc : l.chain = []
    · refine ⟨l, false, false, ?_, hwf, by simp⟩
      simp [applyOp, SLL.insertAtEnd, hc]
    · refine ⟨⟨l.chain ++ [v], l.length + 1⟩, true, false, ?_, ?_, by simp⟩
      · simp [applyOp, SLL.insertAtEnd, hc]
      · show l.length + 1 = ((l.chain ++ [v]).length : Int)
        simp only [List.length_append, List.length_cons, List.length_nil]
        omega
  | insP v pos =>
    by_cases hguard : pos < 0 ∨ l.length < pos
    · have hins : l.insertAtPosition v pos = some (l, some .insertOutOfBounds) := by
        simp only [SLL.insertAtPosition]
        rw [if_pos hguard]
      exact ⟨l, false, false, by simp [applyOp, hins], hwf, by simp⟩
    · by_cases h0 : pos = 0
      · have hins : l.insertAtPosition v pos = some (l.insertAtBeginning v) := by
          simp only [SLL.insertAtPosition]
          rw [if_neg hguard, if_pos h0]
        refine ⟨⟨v :: l.chain, l.length + 1⟩, true, false, ?_, ?_, by simp⟩
        · simp [applyOp, hins, SLL.insertAtBeginning]
        · show l.length + 1 = ((v :: l.chain).length : Int)
          simp only [List.length_cons]
          omega
      · by_cases hend : pos = l.length - 1
        · have hlen2 : 2 ≤ l.length := by omega
          have hne : l.chain ≠ [] := by
            intro hc
            rw [hc] at hwf
            simp at hwf
            omega
          have hins : l.insertAtPosition v pos = some (l.insertAtEnd v) := by
            simp only [SLL.insertAtPosition]
            rw [if_neg hguard, if_neg h0, if_pos hend]
          have hend2 : l.insertAtEnd v = (⟨l.chain ++ [v], l.length + 1⟩, none) := by
            simp [SLL.insertAtEnd, hne]
          refine ⟨⟨l.chain ++ [v], l.length + 1⟩, true, false, ?_, ?_, by simp⟩
          · simp [applyOp, hins, hend2]
          · show l.length + 1 = ((l.chain ++ [v]).length : Int)
            simp only [List.length_append, List.length_cons, List.length_nil]
            omega
        · have hge : 1 ≤ pos := by omega
          have hlt : (pos - 1).toNat < l.chain.length := by omega
          have hlink := linkAfter_some l.chain (pos - 1).toNat v hlt
          have hins : l.insertAtPosition v pos =
              some (⟨l.chain.take ((pos - 1).toNat + 1) ++
                       v :: l.chain.drop ((pos - 1).toNat + 1), l.length + 1⟩, none) := by
            simp only [SLL.insertAtPosition]
            rw [if_neg hguard, if_neg h0, if_neg hend, hlink]
            simp only [Option.map_some']
          refine ⟨⟨l.chain.take ((pos - 1).toNat + 1) ++
                     v :: l.chain.drop ((pos - 1).toNat + 1), l.length + 1⟩,
                  true, false, by simp [applyOp, hins], ?_, by simp⟩
          show l.length + 1 = (((l.chain.take ((pos - 1).toNat + 1) ++
            v :: l.chain.drop ((pos - 1).toNat + 1)).length : Nat) : Int)
          simp only [List.length_append, List.length_cons, List.length_take,
            List.length_drop]
          omega
  | delB =>
    by_cases h0 : l.length = 0
    · refine ⟨l, false, false, ?_, hwf, by simp⟩
      simp [applyOp, SLL.deleteFromBeginning, h0]
    · have h1 : 1 ≤ l.chain.length := by omega
      obtain ⟨x, rest, hx⟩ := exists_cons_of_one_le l.chain h1
      have hdel : l.deleteFromBeginning = some (⟨rest, l.length - 1⟩, x, none) := by
        simp only [SLL.deleteFromBeginning]
        rw [if_neg h0, hx]
      refine ⟨⟨rest, l.length - 1⟩, false, true, by simp [applyOp, hdel], ?_, by simp⟩
      have hlen : l.chain.length = rest.length + 1 := by
        rw [hx]
        simp
      show l.length - 1 = (rest.length : Int)
      omega
  | delE =>
    by_cases h0 : l.length = 0
    · refine ⟨l, false, false, ?_, hwf, by simp⟩
      simp [applyOp, SLL.deleteFromEnd, h0]
    · by_cases h1 : l.length = 1
      · have hc1 : 1 ≤ l.chain.length := by omega
        obtain ⟨x, rest, hx⟩ := exists_cons_of_one_le l.chain hc1
        have hdel0 : l.deleteFromBeginning = some (⟨rest, l.length - 1⟩, x, none) := by
          simp only [SLL.deleteFromBeginning]
          rw [if_neg h0, hx]
        have hdel : l.deleteFromEnd = some (⟨rest, l.length - 1⟩, x, none) := by
          simp only [SLL.deleteFromEnd]
          rw [if_neg h0, if_pos h1]
          exact hdel0
        refine ⟨⟨rest, l.length - 1⟩, false, true, by simp [applyOp, hdel], ?_, by simp⟩
        have hlen : l.chain.length = rest.length + 1 := by
          rw [hx]
          simp
        show l.length - 1 = (rest.length : Int)
        omega
      · have hc2 : 2 ≤ l.chain.length := by omega
        obtain ⟨x, y, rest, hx⟩ := exists_cons_cons_of_two_le l.chain hc2
        have hdel : l.deleteFromEnd =
            some (⟨x :: (lastSplit y rest).1, l.length - 1⟩, (lastSplit y rest).2, none) := by
          simp only [SLL.deleteFromEnd]
          rw [if_neg h0, if_neg h1, hx]
        refine ⟨⟨x :: (lastSplit y rest).1, l.length - 1⟩, false, true,
                by simp [applyOp, hdel], ?_, by simp⟩
        have hlen : l.chain.length = rest.length + 2 := by
          rw [hx]
          simp
        have hls := lastSplit_len rest y
        show l.length - 1 = (((x :: (lastSplit y rest).1).length : Nat) : Int)
        simp only [List.length_cons]
        omega
  | delP pos =>
    by_cases hguard : pos < 0 ∨ l.length ≤ pos
    · have hdel : l.deleteAtPosition pos = some (l, 0, some .deleteOutOfBounds) := by
        simp only [SLL.deleteAtPosition]
        rw [if_pos hguard]
      exact ⟨l, false, false, by simp [applyOp, hdel], hwf, by simp⟩
    · by_cases h0 : pos = 0
      · have hne0 : l.length ≠ 0 := by omega
        have hc1 : 1 ≤ l.chain.length := by omega
        obtain ⟨x, rest, hx⟩ := exists_cons_of_one_le l.chain hc1
        have hdel0 : l.deleteFromBeginning = some (⟨rest, l.length - 1⟩, x, none) := by
          simp only [SLL.deleteFromBeginning]
          rw [if_neg hne0, hx]
        have hdel : l.deleteAtPosition pos = some (⟨rest, l.length - 1⟩, x, none) := by
          simp only [SLL.deleteAtPosition]
          rw [if_neg hguard, if_pos h0]
          exact hdel0
        refine ⟨⟨rest, l.length - 1⟩, false, true, by simp [applyOp, hdel], ?_, by simp⟩
        have hlen : l.chain.length = rest.length + 1 := by
          rw [hx]
          simp
        show l.length - 1 = (rest.length : Int)
        omega
      · by_cases hend : pos = l.length - 1
        · have hne0 : l.length ≠ 0 := by omega
          have hne1 : l.length ≠ 1 := by omega
          have hc2 : 2 ≤ l.chain.length := by omega
          obtain ⟨x, y, rest, hx⟩ := exists_cons_cons_of_two_le l.chain hc2
          have hdelE : l.deleteFromEnd =
              some (⟨x :: (lastSplit y rest).1, l.length - 1⟩, (lastSplit y rest).2, none) := by
            simp only [SLL.deleteFromEnd]
            rw [if_neg hne0, if_neg hne1, hx]
          have hdel : l.deleteAtPosition pos =
              some (⟨x :: (lastSplit y rest).1, l.length - 1⟩, (lastSplit y rest).2, none) := by
            simp only [SLL.deleteAtPosition]
            rw [if_neg hguard, if_neg h0, if_pos hend]
            exact hdelE
          refine ⟨⟨x :: (lastSplit y rest).1, l.length - 1⟩, false, true,
                  by simp [applyOp, hdel], ?_, by simp⟩
          have hlen : l.chain.length = rest.length + 2 := by
            rw [hx]
            simp
          have hls := lastSplit_len rest y
          show l.length - 1 = (((x :: (lastSplit y rest).1).length : Nat) : Int)
          simp only [List.length_cons]
          omega
        · have hge : 1 ≤ pos := by omega
          have hcond : (pos - 1).toNat + 1 < l.chain.length := by omega
          obtain ⟨w, c2, hr, hl⟩ := removeAfter_some l.chain (pos - 1).toNat hcond
          have hdel : l.deleteAtPosition pos = some (⟨c2, l.length - 1⟩, w, none) := by
            simp only [SLL.deleteAtPosition]
            rw [if_neg hguard, if_neg h0, if_neg hend, hr]
            simp only [Option.map_some']
          refine ⟨⟨c2, l.length - 1⟩, false, true, by simp [applyOp, hdel], ?_, by simp⟩
          show l.length - 1 = (c2.length : Int)
          omega

/-- Sequence preservation: from any well-formed list, a whole sequence of
operations runs without panic, lands in a well-formed list, and the length
moves by exactly the net successful-insert minus successful-delete count. -/
lemma runOps_wf : ∀ (ops : List SllOp) (l : SLL) (ins del : Nat),
    l.length = (l.chain.length : Int) →
    ∃ l1 ins1 del1, runOps l ins del ops = some (l1, ins1, del1) ∧
      l1.length = (l1.chain.length : Int) ∧
      l1.length - ((ins1 : Int) - del1) = l.length - ((ins : Int) - del) := by
  intro ops
  induction ops with
  | nil =>
    intro l ins del hwf
    exact ⟨l, ins, del, rfl, hwf, rfl⟩
  | cons op ops ih =>
    intro l ins del hwf
    obtain ⟨l1, bi, bd, happ, hwf1, hcount⟩ := applyOp_wf l op hwf
    obtain ⟨l2, ins2, del2, hrun, hwf2, hcount2⟩ :=
      ih l1 (ins + if bi then 1 else 0) (del + if bd then 1 else 0) hwf1
    refine ⟨l2, ins2, del2, ?_, hwf2, ?_⟩
    · simp only [runOps, happ, Option.some_bind]
      exact hrun
    · cases bi <;> cases bd <;> simp_all <;> omega

/-- C9: every sequence of operations starting from the empty singly linked
list runs without abrupt termination and ends in a state where `length`
equals the number of nodes reachable from `head` (hence `length == 0` iff
the head is nil) and equals the number of successful insertions minus the
number of successful deletions performed. -/
theorem c9_sll_length_invariant (ops : List SllOp) :
    ∃ r : SLL × Nat × Nat, runOps SLL.new 0 0 ops = some r ∧
      r.1.length = (r.1.chain.length : Int) ∧
      r.1.length = (r.2.1 : Int) - (r.2.2 : Int) := by
  obtain ⟨l1, ins1, del1, hrun, hwf1, hc⟩ :=
    runOps_wf ops SLL.new 0 0 (by simp [SLL.new])
  refine ⟨(l1, ins1, del1), hrun, hwf1, ?_⟩
  show l1.length = (ins1 : Int) - (del1 : Int)
  simp only [SLL.new] at hc
  omega

/-! ## DoublyLinkedList — src/linkedlist/linkedlist.go -/

/-- Go `bidirectionalNode[T]` (`linkedlist.go:18`), in an arena
representation: `prev`/`next` are indices into the node arena (`none` =
nil pointer). -/
structure DNode where
  prev : Option Nat
  next : Option Nat
  val : Int
deriving DecidableEq

/-- Go `DoublyLinkedList[T]` (`linkedlist.go:237`): node arena (each
allocated node keeps its index for good), head/tail pointers, length. -/
structure DLL where
  nodes : List DNode
  head : Option Nat
  tail : Option Nat
  length : Int
deriving DecidableEq

/-- Go `NewDLL[T]()`. -/
def DLL.new : DLL := ⟨[], none, none, 0⟩

/-- Go `DoublyLinkedList.InsertAtBeginning(val)` (`linkedlist.go:264`): the
new node is allocated with `Prev: nil, Next: l.head`, becomes head (and tail
when the list was empty), and `length` is incremented.  Note the code never
touches the former head node, in particular not its `Prev` field. -/
def DLL.insertAtBeginning (l : DLL) (v : Int) : DLL × Option LErr :=
  let idx := l.nodes.length
  (⟨l.nodes ++ [⟨none, l.head, v⟩],
    some idx,
    if l.length = 0 then some idx else l.tail,
    l.length + 1⟩, none)

/-- Adjacent-pair consistency, §3 of the spec: whenever `a.next == b`, it
must hold that `b.prev == a`. -/
def DLL.pairsOk (l : DLL) : Bool :=
  (List.range l.nodes.length).all fun i =>
    match l.nodes.get? i with
    | none => true
    | some nd =>
      match nd.next with
      | none => true
      | some j =>
        match l.nodes.get? j with
        | none => false
        | some ndj => ndj.prev == some i

/-- End consistency: `head.prev` and `tail.next` are both nil. -/
def DLL.endsOk (l : DLL) : Bool :=
  (match l.head with
   | none => true
   | some h =>
     match l.nodes.get? h with
     | none => false
     | some nd => nd.prev == none) &&
  (match l.tail with
   | none => true
   | some t =>
     match l.nodes.get? t with
     | none => false
     | some nd => nd.next == none)

/-- Size consistency: `length == 1` implies `head == tail`; `length == 0`
implies head and tail are both nil. -/
def DLL.sizeOk (l : DLL) : Bool :=
  (if l.length = 1 then l.head == l.tail else true) &&
  (if l.length = 0 then l.head == none && l.tail == none else true)

/-- The doubly-linked consistency invariant claimed for every reachable
state. -/
def DLL.invariantB (l : DLL) : Bool := l.pairsOk && l.endsOk && l.sizeOk

/-- C2: the claim says every implemented `DoublyLinkedList` operation
preserves the doubly-linked consistency invariant from the empty list.  Two
`InsertAtBeginning` calls refute it: the code never sets the former head's
`Prev`, so after inserting 1 then 2 the pair `(head, head.next)` has
`head.next.prev == nil` instead of `head`. -/
theorem c2_dll_insert_breaks_invariant :
    DLL.invariantB ((DLL.new.insertAtBeginning 1).1.insertAtBeginning 2).1 = false := by
  rfl

end Dsa
